import Mathlib

/-!
Verification development for the functional-harmony chord classifier
(`src/functional_harmony.py`).  The Python data model and the pure
classification functions are shallowly embedded: Python `Set[int]` becomes
`Finset ℤ`, Python `%` with a positive modulus becomes `Int.emod`, Python
floats (`1200.0 / edo`, cent values) become exact rationals, and the
fallible constructor `EDOSystem.__post_init__` becomes an `Except`-valued
builder.
-/

namespace FunctionalHarmony

/-- The six interval-quality tags (Python enum `Quality`). -/
inductive Quality
  | STABLE
  | MODAL
  | HOLLOW
  | UNSTABLE
  | LEADING
  | ODD
deriving DecidableEq

/-- The four harmonic functions (Python enum `Function`). -/
inductive Function
  | TONIC
  | PREDOMINANT
  | DOMINANT
  | MEDIANT
deriving DecidableEq

/-- The validated tuning-system record (Python dataclass `EDOSystem`, after
`__post_init__` succeeded).  `interval_qualities` is the derived step → quality
mapping, stored as a list indexed by step; `chord_naming_systems` embeds the
source's chord notation tables (`chord_notation_systems`) and `current_naming`
the source's currently selected notation-table name. -/
structure EDOSystem where
  edo : ℕ
  interval_qualities : List Quality
  leading_targets : ℤ → Option ℤ
  dominant_leading_intervals : Finset ℤ
  chord_intervals : List (List ℤ)
  chord_naming_systems : List (String × List String)
  note_name_systems : List (String × List String)
  current_naming : String
  current_note_names : String

/-- The quality-code table of `__post_init__` (`quality_map`); unknown codes
yield `none`, modelling the Python `KeyError`. -/
def quality_map (c : String) : Option Quality :=
  if c = "s" then some Quality.STABLE
  else if c = "m" then some Quality.MODAL
  else if c = "h" then some Quality.HOLLOW
  else if c = "u" then some Quality.UNSTABLE
  else if c = "l" then some Quality.LEADING
  else if c = "o" then some Quality.ODD
  else none

/-- Elementwise conversion of the raw code list, failing on the first unknown
code (the dict comprehension building `interval_qualities`). -/
def mapQualities : List String → Option (List Quality)
  | [] => some []
  | c :: cs =>
    match quality_map c, mapQualities cs with
    | some q, some qs => some (q :: qs)
    | _, _ => none

/-- `EDOSystem.get_quality`: quality of an interval, looked up mod `edo`. -/
def get_quality (s : EDOSystem) (i : ℤ) : Quality :=
  s.interval_qualities.getD (i % (s.edo : ℤ)).toNat Quality.STABLE

/-- `EDOSystem.get_qualities`: the set of qualities present in a chord. -/
def get_qualities (s : EDOSystem) (c : Finset ℤ) : Finset Quality :=
  c.image (get_quality s)

/-- `EDOSystem.has_quality`. -/
def has_quality (s : EDOSystem) (c : Finset ℤ) (q : Quality) : Bool :=
  decide (q ∈ get_qualities s c)

/-- The normalized member set `{i % edo for i in intervals}` computed by the
leading-interval predicates and by rule 4 of the classifier. -/
def intervals_mod (s : EDOSystem) (c : Finset ℤ) : Finset ℤ :=
  c.image fun i => i % (s.edo : ℤ)

/-- The per-member test shared by the loop bodies of `has_active_leading` and
`has_dominant_leading`: the member's normalized value has a defined leading
target and that target (mod edo) is absent from the normalized member set. -/
def leads_unresolved (s : EDOSystem) (c : Finset ℤ) (i : ℤ) : Bool :=
  match s.leading_targets (i % (s.edo : ℤ)) with
  | none => false
  | some t => !(decide ((t % (s.edo : ℤ)) ∈ intervals_mod s c))

/-- `EDOSystem.has_active_leading`: some member has LEADING quality, a defined
leading target, and that target (mod edo) is absent from the chord (the
Python `for` loop returns whether such a member exists). -/
def has_active_leading (s : EDOSystem) (c : Finset ℤ) : Bool :=
  decide (∃ i ∈ c, get_quality s i = Quality.LEADING ∧ leads_unresolved s c i = true)

/-- `EDOSystem.has_dominant_leading`: same absence-of-target test, restricted
to members whose normalized value is a designated dominant-leading step. -/
def has_dominant_leading (s : EDOSystem) (c : Finset ℤ) : Bool :=
  decide (∃ i ∈ c, (i % (s.edo : ℤ)) ∈ s.dominant_leading_intervals ∧
    leads_unresolved s c i = true)

/-- The nonzero STABLE-tagged step values (`stable_interval_values` in
`classify_chord`); the dict keys are the indices of the quality list. -/
def stable_interval_values (s : EDOSystem) : Finset ℤ :=
  (((List.range s.interval_qualities.length).filter fun i =>
      decide (s.interval_qualities.getD i Quality.STABLE = Quality.STABLE ∧ i ≠ 0)).map
    fun i => (i : ℤ)).toFinset

/-- `has_fifth_no_root` in `classify_chord`: a STABLE-quality member is present
and `0` is not literally a member. -/
def has_fifth_no_root (s : EDOSystem) (c : Finset ℤ) : Bool :=
  decide (0 < (c.filter fun i => get_quality s i = Quality.STABLE).card) &&
    !(decide ((0 : ℤ) ∈ c))

/-- `has_internal_stable` in `classify_chord`: the pairwise loop over the
sorted member list; pairs of distinct positions of the sorted list of a set are
exactly the member pairs `a < b`. -/
def has_internal_stable (s : EDOSystem) (c : Finset ℤ) : Bool :=
  decide (∃ a ∈ c, ∃ b ∈ c, a < b ∧ ((b - a) % (s.edo : ℤ)) ∈ stable_interval_values s)

/-- `is_dominant_shell` in `classify_chord`. -/
def is_dominant_shell (s : EDOSystem) (c : Finset ℤ) : Bool :=
  has_fifth_no_root s c && !(has_internal_stable s c)

/-- The minimisation key `abs(i * (1200/edo) - 702)` in exact rational
arithmetic: the quantity the spec's perfect-fifth claim is stated over.
The program's double-precision key is `fifth_key_fl` below. -/
def fifth_key (edo : ℕ) (i : ℕ) : ℚ :=
  |(i : ℚ) * (1200 / (edo : ℚ)) - 702|

/-- Python `min(..., key=f)` over a nonempty list: the running best is replaced
only on a strictly smaller key, so the first minimiser wins. -/
def min_key_aux (f : ℕ → ℚ) : ℕ → List ℕ → ℕ
  | best, [] => best
  | best, x :: xs => min_key_aux f (if f x < f best then x else best) xs

/-- `EDOSystem.perfect_fifth` with the key computed in exact rational
arithmetic: the idealisation used by the classifier embedding and by the
claim statements.  The program's double-precision derivation is
`perfect_fifth_fl`; the two agree at `edo = 12`, where `1200.0 / 12` is
exact. -/
def perfect_fifth (edo : ℕ) : ℕ :=
  match List.range edo with
  | [] => 0
  | x :: xs => min_key_aux (fifth_key edo) x xs

/-!  ## IEEE-754 double-precision model

The program computes `cent_per_step`, `cents` and the perfect-fifth key in
Python floats (binary64).  The magnitudes involved are normal doubles, so a
binary64 value is an integer mantissa times a power of two, and each float
operation rounds its exact rational result to 53 significant bits, ties to
even.  The model below implements exactly that with integer arithmetic (so
that concrete runs reduce in the kernel): `roundPosToFP` scales `num/den`
into the mantissa range `[2^52, 2^53)` and rounds half-to-even, and the
derived operations round the exact quotient, product and difference once,
as IEEE division, multiplication and subtraction do. -/

/-- A double-precision value `m * 2^e` (sign carried by the mantissa). -/
structure FP where
  m : ℤ
  e : ℤ
deriving DecidableEq

/-- The exact rational value of a double. -/
def value (a : FP) : ℚ :=
  (a.m : ℚ) * 2 ^ a.e

/-- The double holding a small natural number exactly. -/
def fpN (n : ℕ) : FP := ⟨n, 0⟩

/-- Float comparison `a < b` (exact comparison of the represented values,
as IEEE comparison of finite doubles is). -/
def fplt (a b : FP) : Bool :=
  if a.e ≤ b.e then decide (a.m < b.m * 2 ^ (b.e - a.e).toNat)
  else decide (a.m * 2 ^ (a.e - b.e).toNat < b.m)

/-- Float comparison `a ≤ b`. -/
def fple (a b : FP) : Bool := !(fplt b a)

def two52 : ℕ := 4503599627370496

def two53 : ℕ := 9007199254740992

/-- Scale `num/den` (positive) into `[2^52, 2^53)` by powers of two,
adjusting the exponent; the fuel bounds the shift count (far more than the
binary64 exponent range needs). -/
def normQuot : ℕ → ℕ → ℕ → ℤ → ℕ × ℕ × ℤ
  | 0, num, den, e => (num, den, e)
  | fuel + 1, num, den, e =>
    if num < two52 * den then normQuot fuel (2 * num) den (e - 1)
    else if two53 * den ≤ num then normQuot fuel num (2 * den) (e + 1)
    else (num, den, e)

/-- Round `num/den` to the nearest integer, ties to even. -/
def roundMantissa (num den : ℕ) : ℕ :=
  let q := num / den
  let r := num % den
  if 2 * r < den then q
  else if den < 2 * r then q + 1
  else if q % 2 = 0 then q else q + 1

/-- Round the positive rational `(num/den) * 2^e` to the nearest binary64
value, ties to even. -/
def roundPosToFP (num den : ℕ) (e : ℤ) : FP :=
  if num = 0 then ⟨0, 0⟩
  else
    match normQuot 1200 num den e with
    | (n, d, e2) =>
      let mant := roundMantissa n d
      if mant = two53 then ⟨two52, e2 + 1⟩ else ⟨mant, e2⟩

/-- Round the dyadic `m * 2^e` to the nearest binary64 value. -/
def roundDyadic (m : ℤ) (e : ℤ) : FP :=
  if m < 0 then
    match roundPosToFP (-m).toNat 1 e with
    | r => ⟨-r.m, r.e⟩
  else roundPosToFP m.toNat 1 e

/-- IEEE division of two naturals: `fl(a / b)`. -/
def flDivNat (a b : ℕ) : FP := roundPosToFP a b 0

/-- IEEE multiplication: the exact product, rounded once. -/
def flMul (a b : FP) : FP := roundDyadic (a.m * b.m) (a.e + b.e)

/-- IEEE subtraction: the exact difference, rounded once. -/
def flSub (a b : FP) : FP :=
  if a.e ≤ b.e then roundDyadic (a.m - b.m * 2 ^ (b.e - a.e).toNat) a.e
  else roundDyadic (a.m * 2 ^ (a.e - b.e).toNat - b.m) b.e

/-- `abs` of a double (exact). -/
def fabs (a : FP) : FP := ⟨|a.m|, a.e⟩

/-- `cent_per_step = 1200.0 / edo` as the program computes it. -/
def cent_per_step_fp (edo : ℕ) : FP := flDivNat 1200 edo

/-- `cents = step * cent_per_step` as the program computes it (the integer
`step` converts to a double exactly). -/
def cents_fp (edo step : ℕ) : FP := flMul (fpN step) (cent_per_step_fp edo)

/-- The program's double-precision minimisation key
`abs(i * cent_per_step - 702)`: two rounded operations, then an exact
`abs`. -/
def fifth_key_fp (edo i : ℕ) : FP :=
  fabs (flSub (flMul (fpN i) (cent_per_step_fp edo)) (fpN 702))

/-- The exact rational value of the program's double-precision key. -/
def fifth_key_fl (edo i : ℕ) : ℚ := value (fifth_key_fp edo i)

/-- `min(..., key=f)` over the double-precision keys (same first-minimiser
fold as `min_key_aux`, with the float comparison; the comparison is matched
on so that the running best stays a literal during evaluation). -/
def min_key_fp_aux (f : ℕ → FP) : ℕ → List ℕ → ℕ
  | best, [] => best
  | best, x :: xs =>
    match fplt (f x) (f best) with
    | true => min_key_fp_aux f x xs
    | false => min_key_fp_aux f best xs

/-- `EDOSystem.perfect_fifth` as the program derives it: the first
minimiser of the double-precision key. -/
def perfect_fifth_fl (edo : ℕ) : ℕ :=
  match List.range edo with
  | [] => 0
  | x :: xs => min_key_fp_aux (fifth_key_fp edo) x xs

/-- `classify_chord`: the ordered five-rule decision procedure. -/
def classify_chord (c : Finset ℤ) (s : EDOSystem) : Function :=
  if has_dominant_leading s c &&
      (has_quality s c Quality.UNSTABLE || is_dominant_shell s c) then
    Function.DOMINANT
  else if has_quality s c Quality.UNSTABLE && !(has_dominant_leading s c) then
    Function.PREDOMINANT
  else if !(has_quality s c Quality.UNSTABLE) &&
      (has_active_leading s c || has_quality s c Quality.HOLLOW ||
        has_quality s c Quality.ODD) then
    Function.MEDIANT
  else if decide ((0 : ℤ) ∈ c) &&
      decide (((perfect_fifth s.edo : ℕ) : ℤ) ∈ intervals_mod s c) then
    Function.TONIC
  else
    Function.PREDOMINANT

/-- Fallible construction (`EDOSystem.__post_init__`), with the checks in the
source's order: quality-list length, quality-code conversion (`KeyError`), the
perfect-fifth computation (`1200.0 / edo` raises on `edo = 0`), chord-notation
table lengths, note-name table lengths. -/
def mkEDOSystem (edo : ℕ) (interval_quality_list : List String)
    (leading_targets : ℤ → Option ℤ) (dominant_leading_intervals : Finset ℤ)
    (chord_intervals : List (List ℤ))
    (chord_naming_systems note_name_systems : List (String × List String))
    (current_naming current_note_names : String) : Except String EDOSystem :=
  if interval_quality_list.length ≠ edo then
    Except.error ("Expected " ++ toString edo ++ " qualities, got " ++
      toString interval_quality_list.length)
  else
    match mapQualities interval_quality_list with
    | none => Except.error ("KeyError")
    | some qualities =>
      if edo = 0 then Except.error ("ZeroDivisionError")
      else
        match chord_naming_systems.find? fun p =>
            decide (p.2.length ≠ chord_intervals.length) with
        | some p =>
          Except.error ("Notation system '" ++ p.1 ++ "' has " ++
            toString p.2.length ++ " names but " ++
            toString chord_intervals.length ++ " chord intervals")
        | none =>
          match note_name_systems.find? fun p => decide (p.2.length ≠ edo) with
          | some p =>
            Except.error ("Note name system '" ++ p.1 ++ "' has " ++
              toString p.2.length ++ " names but edo is " ++ toString edo)
          | none =>
            Except.ok ⟨edo, qualities, leading_targets,
              dominant_leading_intervals, chord_intervals,
              chord_naming_systems, note_name_systems,
              current_naming, current_note_names⟩

/-- Whether construction succeeded (no exception raised). -/
def constructionOk (r : Except String EDOSystem) : Bool :=
  match r with
  | Except.ok _ => true
  | Except.error _ => false

/-- A tuning system the classification claims quantify over: positive `edo`
and a quality table of length `edo` (the lengths `mkEDOSystem` guarantees for
the fields classification reads). -/
def Valid (s : EDOSystem) : Prop :=
  0 < s.edo ∧ s.interval_qualities.length = s.edo

/-- `generate_interval_quality_list`: the cents-bucket generator, with
`cents = step * (1200.0 / edo)` computed in the program's double precision
(`cents_fp`) and the range tests performed as float comparisons, exactly as
the source does. -/
def generate_interval_quality_list (edo : ℕ) : List String :=
  (List.range edo).map fun (step : ℕ) =>
    let cents : FP := cents_fp edo step
    if step = 0 then "s"
    else if fplt (fpN 0) cents && fplt cents (fpN 160) then "o"
    else if fple (fpN 160) cents && fplt cents (fpN 255) then "u"
    else if fple (fpN 255) cents && fplt cents (fpN 445) then "m"
    else if fple (fpN 445) cents && fplt cents (fpN 560) then "u"
    else if fple (fpN 560) cents && fplt cents (fpN 665) then "o"
    else if fple (fpN 665) cents && fplt cents (fpN 735) then "s"
    else if fple (fpN 735) cents && fplt cents (fpN 850) then "l"
    else if fple (fpN 850) cents && fplt cents (fpN 1040) then "h"
    else if fple (fpN 1040) cents && fplt cents (fpN 1200) then "l"
    else "s"

/-- Modelled from the spec: the fixed cents-range buckets as §6 states them
(step 0 ⇒ STABLE; (0,160) ⇒ ODD; [160,255) ⇒ UNSTABLE; [255,445) ⇒ MODAL;
[445,560) ⇒ UNSTABLE; [560,665) ⇒ ODD; [665,735) ⇒ STABLE; [735,850) ⇒
LEADING; [850,1040) ⇒ HOLLOW; [1040,1200) ⇒ LEADING), applied to a given
rational cents value, with a junk default outside the buckets. -/
def spec_quality_bucket_at (step : ℕ) (cents : ℚ) : String :=
  if step = 0 then "s"
  else if 0 < cents ∧ cents < 160 then "o"
  else if 160 ≤ cents ∧ cents < 255 then "u"
  else if 255 ≤ cents ∧ cents < 445 then "m"
  else if 445 ≤ cents ∧ cents < 560 then "u"
  else if 560 ≤ cents ∧ cents < 665 then "o"
  else if 665 ≤ cents ∧ cents < 735 then "s"
  else if 735 ≤ cents ∧ cents < 850 then "l"
  else if 850 ≤ cents ∧ cents < 1040 then "h"
  else if 1040 ≤ cents ∧ cents < 1200 then "l"
  else ""

/-- Modelled from the spec: the buckets applied to the exact cents value
`step * 1200/edo`, the reading the claim quantifies over. -/
def spec_quality_bucket (edo : ℕ) (step : ℕ) : String :=
  spec_quality_bucket_at step ((step : ℚ) * (1200 / (edo : ℚ)))

/-- Modelled from the spec: the 12-EDO reference system of §8 (the data file
`edo_data.md` that `parse_edo_data_file` reads is not part of the sources).
The quality list is the source's `generate_interval_quality_list 12`; the
leading targets (11 → 0, 8 → 7) and the dominant-leading set {11} are the
minimal data reproducing every literal 12-EDO scenario of spec §8. -/
def EDO12 : EDOSystem where
  edo := 12
  interval_qualities :=
    [Quality.STABLE, Quality.ODD, Quality.UNSTABLE, Quality.MODAL,
     Quality.MODAL, Quality.UNSTABLE, Quality.ODD, Quality.STABLE,
     Quality.LEADING, Quality.HOLLOW, Quality.HOLLOW, Quality.LEADING]
  leading_targets := fun i =>
    if i = 11 then some 0 else if i = 8 then some 7 else none
  dominant_leading_intervals := {11}
  chord_intervals := [[0, 4, 7], [0, 3, 7]]
  chord_naming_systems := [("full", ["maj", "min"])]
  note_name_systems :=
    [("numbers", ["0", "1", "2", "3", "4", "5", "6", "7", "8", "9", "10", "11"])]
  current_naming := "full"
  current_note_names := "default"

/-- `EDO12` with different presentation-selection fields, used to exhibit
that the selected display tables do not influence classification. -/
def EDO12_alt : EDOSystem where
  edo := EDO12.edo
  interval_qualities := EDO12.interval_qualities
  leading_targets := EDO12.leading_targets
  dominant_leading_intervals := EDO12.dominant_leading_intervals
  chord_intervals := EDO12.chord_intervals
  chord_naming_systems := EDO12.chord_naming_systems
  note_name_systems := EDO12.note_name_systems
  current_naming := "temperament"
  current_note_names := "numbers"

/-!  ## Basic lemmas about normalization and the predicates  -/

theorem emod_emod (e : ℕ) (i : ℤ) : (i % (e : ℤ)) % (e : ℤ) = i % (e : ℤ) :=
  Int.emod_emod_of_dvd i dvd_rfl

theorem get_quality_emod (s : EDOSystem) (i : ℤ) :
    get_quality s (i % (s.edo : ℤ)) = get_quality s i := by
  unfold get_quality
  rw [emod_emod]

theorem mem_intervals_mod {s : EDOSystem} {c : Finset ℤ} {r : ℤ} :
    r ∈ intervals_mod s c ↔ ∃ i ∈ c, i % (s.edo : ℤ) = r := by
  unfold intervals_mod
  simp [Finset.mem_image]

theorem intervals_mod_idem (s : EDOSystem) (c : Finset ℤ) :
    intervals_mod s (intervals_mod s c) = intervals_mod s c := by
  unfold intervals_mod
  rw [Finset.image_image]
  exact Finset.image_congr fun x _ => emod_emod s.edo x

theorem get_qualities_eq (s : EDOSystem) (c : Finset ℤ) :
    get_qualities s c = (intervals_mod s c).image (get_quality s) := by
  unfold get_qualities intervals_mod
  rw [Finset.image_image]
  exact Finset.image_congr fun x _ => (get_quality_emod s x).symm

theorem has_quality_congr {s : EDOSystem} {c₁ c₂ : Finset ℤ}
    (h : intervals_mod s c₁ = intervals_mod s c₂) (q : Quality) :
    has_quality s c₁ q = has_quality s c₂ q := by
  unfold has_quality
  rw [get_qualities_eq, get_qualities_eq, h]

theorem leads_unresolved_congr {s : EDOSystem} {c₁ c₂ : Finset ℤ}
    (h : intervals_mod s c₁ = intervals_mod s c₂) (i : ℤ) :
    leads_unresolved s c₁ i = leads_unresolved s c₂ i := by
  unfold leads_unresolved
  rw [h]

theorem leads_unresolved_emod (s : EDOSystem) (c : Finset ℤ) (i : ℤ) :
    leads_unresolved s c (i % (s.edo : ℤ)) = leads_unresolved s c i := by
  unfold leads_unresolved
  rw [emod_emod]

theorem bool_eq_of_iff {a b : Bool} (h : a = true ↔ b = true) : a = b := by
  cases a <;> cases b <;> simp_all

theorem has_active_leading_iff_mod (s : EDOSystem) (c : Finset ℤ) :
    has_active_leading s c = true ↔
      ∃ r ∈ intervals_mod s c, get_quality s r = Quality.LEADING ∧
        leads_unresolved s c r = true := by
  unfold has_active_leading
  rw [decide_eq_true_eq]
  constructor
  · rintro ⟨i, hi, hq, hu⟩
    refine ⟨i % (s.edo : ℤ), mem_intervals_mod.2 ⟨i, hi, rfl⟩, ?_, ?_⟩
    · rw [get_quality_emod]; exact hq
    · rw [leads_unresolved_emod]; exact hu
  · rintro ⟨r, hr, hq, hu⟩
    obtain ⟨i, hi, rfl⟩ := mem_intervals_mod.1 hr
    refine ⟨i, hi, ?_, ?_⟩
    · rw [get_quality_emod] at hq; exact hq
    · rw [leads_unresolved_emod] at hu; exact hu

theorem has_dominant_leading_iff_mod (s : EDOSystem) (c : Finset ℤ) :
    has_dominant_leading s c = true ↔
      ∃ r ∈ intervals_mod s c, (r % (s.edo : ℤ)) ∈ s.dominant_leading_intervals ∧
        leads_unresolved s c r = true := by
  unfold has_dominant_leading
  rw [decide_eq_true_eq]
  constructor
  · rintro ⟨i, hi, hm, hu⟩
    refine ⟨i % (s.edo : ℤ), mem_intervals_mod.2 ⟨i, hi, rfl⟩, ?_, ?_⟩
    · rw [emod_emod]; exact hm
    · rw [leads_unresolved_emod]; exact hu
  · rintro ⟨r, hr, hm, hu⟩
    obtain ⟨i, hi, rfl⟩ := mem_intervals_mod.1 hr
    refine ⟨i, hi, ?_, ?_⟩
    · rw [emod_emod] at hm; exact hm
    · rw [leads_unresolved_emod] at hu; exact hu

theorem has_active_leading_congr {s : EDOSystem} {c₁ c₂ : Finset ℤ}
    (h : intervals_mod s c₁ = intervals_mod s c₂) :
    has_active_leading s c₁ = has_active_leading s c₂ := by
  refine bool_eq_of_iff ?_
  rw [has_active_leading_iff_mod, has_active_leading_iff_mod]
  constructor
  · rintro ⟨r, hr, hq, hu⟩
    exact ⟨r, h ▸ hr, hq, (leads_unresolved_congr h r) ▸ hu⟩
  · rintro ⟨r, hr, hq, hu⟩
    exact ⟨r, h.symm ▸ hr, hq, (leads_unresolved_congr h r).symm ▸ hu⟩

theorem has_dominant_leading_congr {s : EDOSystem} {c₁ c₂ : Finset ℤ}
    (h : intervals_mod s c₁ = intervals_mod s c₂) :
    has_dominant_leading s c₁ = has_dominant_leading s c₂ := by
  refine bool_eq_of_iff ?_
  rw [has_dominant_leading_iff_mod, has_dominant_leading_iff_mod]
  constructor
  · rintro ⟨r, hr, hm, hu⟩
    exact ⟨r, h ▸ hr, hm, (leads_unresolved_congr h r) ▸ hu⟩
  · rintro ⟨r, hr, hm, hu⟩
    exact ⟨r, h.symm ▸ hr, hm, (leads_unresolved_congr h r).symm ▸ hu⟩

theorem has_fifth_no_root_of_root {s : EDOSystem} {c : Finset ℤ}
    (h : (0 : ℤ) ∈ c) : has_fifth_no_root s c = false := by
  unfold has_fifth_no_root
  simp [h]

theorem is_dominant_shell_of_root {s : EDOSystem} {c : Finset ℤ}
    (h : (0 : ℤ) ∈ c) : is_dominant_shell s c = false := by
  unfold is_dominant_shell
  rw [has_fifth_no_root_of_root h, Bool.false_and]

/-!  ## Lemmas about the classifier  -/

theorem classify_chord_mod_of_root (s : EDOSystem) (c : Finset ℤ)
    (h : (0 : ℤ) ∈ c) :
    classify_chord c s = classify_chord (intervals_mod s c) s := by
  have himg : (0 : ℤ) ∈ intervals_mod s c :=
    mem_intervals_mod.2 ⟨0, h, Int.zero_emod _⟩
  have hI : intervals_mod s (intervals_mod s c) = intervals_mod s c :=
    intervals_mod_idem s c
  have hd1 : decide ((0 : ℤ) ∈ c) = true := by simp [h]
  have hd2 : decide ((0 : ℤ) ∈ intervals_mod s c) = true := by simp [himg]
  unfold classify_chord
  rw [has_dominant_leading_congr hI, has_quality_congr hI Quality.UNSTABLE,
    has_quality_congr hI Quality.HOLLOW, has_quality_congr hI Quality.ODD,
    has_active_leading_congr hI, is_dominant_shell_of_root h,
    is_dominant_shell_of_root himg, hI, hd1, hd2]

theorem classify_chord_empty (s : EDOSystem) :
    classify_chord ∅ s = Function.PREDOMINANT := by
  unfold classify_chord has_quality get_qualities has_active_leading
    has_dominant_leading is_dominant_shell has_fifth_no_root
  simp

theorem classify_chord_eq_tonic {s : EDOSystem} {c : Finset ℤ}
    (h : classify_chord c s = Function.TONIC) :
    (0 : ℤ) ∈ c ∧ ((perfect_fifth s.edo : ℕ) : ℤ) ∈ intervals_mod s c := by
  unfold classify_chord at h
  split_ifs at h with h1 h2 h3 h4
  all_goals simp at h
  simpa [Bool.and_eq_true, decide_eq_true_eq] using h4

theorem classify_chord_eq_dominant {s : EDOSystem} {c : Finset ℤ}
    (h : classify_chord c s = Function.DOMINANT) :
    has_dominant_leading s c = true ∧
      (has_quality s c Quality.UNSTABLE || is_dominant_shell s c) = true := by
  unfold classify_chord at h
  split_ifs at h with h1 h2 h3 h4
  all_goals simp at h
  simpa [Bool.and_eq_true] using h1

theorem perfect_fifth_twelve : perfect_fifth 12 = 7 := by
  have h : perfect_fifth 12 =
      min_key_aux (fifth_key 12) 0 [1, 2, 3, 4, 5, 6, 7, 8, 9, 10, 11] := rfl
  rw [h]
  norm_num [min_key_aux, fifth_key, abs_sub_lt_iff, abs_sub_le_iff]

theorem perfect_fifth_EDO12 : ((perfect_fifth EDO12.edo : ℕ) : ℤ) = 7 := by
  rw [show EDO12.edo = 12 from rfl, perfect_fifth_twelve]
  norm_num

/-!  ## The running-minimum fold behind `perfect_fifth`  -/

theorem min_key_aux_mem (f : ℕ → ℚ) (b : ℕ) (l : List ℕ) :
    min_key_aux f b l = b ∨ min_key_aux f b l ∈ l := by
  induction l generalizing b with
  | nil => simp [min_key_aux]
  | cons x xs ih =>
    simp only [min_key_aux]
    rcases ih (if f x < f b then x else b) with h | h
    · rw [h]
      split_ifs
      · right; exact List.mem_cons_self x xs
      · left; rfl
    · right; exact List.mem_cons_of_mem x h

theorem min_key_aux_le (f : ℕ → ℚ) (b : ℕ) (l : List ℕ) :
    f (min_key_aux f b l) ≤ f b ∧ ∀ x ∈ l, f (min_key_aux f b l) ≤ f x := by
  induction l generalizing b with
  | nil => simp [min_key_aux]
  | cons x xs ih =>
    simp only [min_key_aux]
    obtain ⟨h1, h2⟩ := ih (if f x < f b then x else b)
    have hb : f (if f x < f b then x else b) ≤ f b := by
      split_ifs with hx
      · exact le_of_lt hx
      · exact le_refl _
    have hx : f (if f x < f b then x else b) ≤ f x := by
      split_ifs with hx
      · exact le_refl _
      · exact not_lt.mp hx
    refine ⟨le_trans h1 hb, ?_⟩
    intro y hy
    rcases List.mem_cons.mp hy with rfl | hy
    · exact le_trans h1 hx
    · exact h2 y hy

theorem min_key_aux_first (f : ℕ → ℚ) (b : ℕ) (l : List ℕ)
    (hsort : (b :: l).Pairwise (· < ·)) :
    ∀ x, (x = b ∨ x ∈ l) → f x ≤ f (min_key_aux f b l) →
      min_key_aux f b l ≤ x := by
  induction l generalizing b with
  | nil =>
    rintro x (rfl | hx) _
    · simp [min_key_aux]
    · cases hx
  | cons y ys ih =>
    intro x hx hfx
    obtain ⟨hhead, htail⟩ := List.pairwise_cons.mp hsort
    obtain ⟨hhead2, htail2⟩ := List.pairwise_cons.mp htail
    simp only [min_key_aux] at hfx ⊢
    by_cases hyb : f y < f b
    · rw [if_pos hyb] at hfx ⊢
      have hsort' : (y :: ys).Pairwise (· < ·) := htail
      rcases hx with hxb | hx

      · exfalso
        rw [hxb] at hfx
        have hmin := (min_key_aux_le f y ys).1
        exact absurd hfx (not_le.mpr (lt_of_le_of_lt hmin hyb))
      · rcases List.mem_cons.mp hx with hxy | hx
        · rw [hxy] at hfx ⊢
          exact ih y hsort' y (Or.inl rfl) hfx
        · exact ih y hsort' x (Or.inr hx) hfx
    · rw [if_neg hyb] at hfx ⊢
      have hsort' : (b :: ys).Pairwise (· < ·) := by
        refine List.pairwise_cons.mpr ⟨?_, htail2⟩
        intro a ha
        exact hhead a (List.mem_cons_of_mem y ha)
      rcases hx with hxb | hx
      · rw [hxb] at hfx ⊢
        exact ih b hsort' b (Or.inl rfl) hfx
      · rcases List.mem_cons.mp hx with hxy | hx
        · rw [hxy] at hfx ⊢
          have hble : f b ≤ f y := not_lt.mp hyb
          have hr : min_key_aux f b ys ≤ b :=
            ih b hsort' b (Or.inl rfl) (le_trans hble hfx)
          exact le_of_lt (lt_of_le_of_lt hr (hhead y (List.mem_cons_self y ys)))
        · exact ih b hsort' x (Or.inr hx) hfx

/-!  ## Bridging the double-precision model to rational values  -/

theorem value_fpN (n : ℕ) : value (fpN n) = (n : ℚ) := by
  unfold value fpN
  simp

theorem dyadic_cast (mI : ℤ) (k : ℕ) (e : ℤ) :
    ((mI * 2 ^ k : ℤ) : ℚ) * 2 ^ e = (mI : ℚ) * 2 ^ ((k : ℤ) + e) := by
  push_cast
  rw [zpow_add₀ (by norm_num : (2 : ℚ) ≠ 0), zpow_natCast]
  ring

theorem fplt_iff (a b : FP) : fplt a b = true ↔ value a < value b := by
  unfold fplt value
  have h2 : ∀ e : ℤ, (0 : ℚ) < (2 : ℚ) ^ e := fun e => zpow_pos (by norm_num) e
  split_ifs with h
  · rw [decide_eq_true_eq]
    have hk : (((b.e - a.e).toNat : ℤ)) + a.e = b.e := by omega
    have hb : (b.m : ℚ) * 2 ^ b.e =
        ((b.m * 2 ^ (b.e - a.e).toNat : ℤ) : ℚ) * 2 ^ a.e := by
      rw [dyadic_cast, hk]
    rw [hb, mul_lt_mul_right (h2 a.e), Int.cast_lt]
  · rw [decide_eq_true_eq]
    have hk : (((a.e - b.e).toNat : ℤ)) + b.e = a.e := by omega
    have ha : (a.m : ℚ) * 2 ^ a.e =
        ((a.m * 2 ^ (a.e - b.e).toNat : ℤ) : ℚ) * 2 ^ b.e := by
      rw [dyadic_cast, hk]
    rw [ha, mul_lt_mul_right (h2 b.e), Int.cast_lt]

theorem fple_iff (a b : FP) : fple a b = true ↔ value a ≤ value b := by
  unfold fple
  rw [Bool.not_eq_true']
  rw [← Bool.not_eq_true (fplt b a)]
  rw [not_iff_comm, fplt_iff, not_le]

theorem min_key_fp_aux_eq (f : ℕ → FP) (b : ℕ) (l : List ℕ) :
    min_key_fp_aux f b l = min_key_aux (fun i => value (f i)) b l := by
  induction l generalizing b with
  | nil => rfl
  | cons x xs ih =>
    simp only [min_key_fp_aux, min_key_aux]
    cases hc : fplt (f x) (f b) with
    | true =>
      rw [if_pos ((fplt_iff (f x) (f b)).mp hc)]
      exact ih x
    | false =>
      have h' : ¬ value (f x) < value (f b) := by
        intro h
        have hT := (fplt_iff (f x) (f b)).mpr h
        rw [hc] at hT
        cases hT
      rw [if_neg h']
      exact ih b

/-!  ## Construction-time validation  -/

theorem mapQualities_isSome {l : List String}
    (h : ∀ c ∈ l, (quality_map c).isSome = true) :
    ∃ qs, mapQualities l = some qs := by
  induction l with
  | nil => exact ⟨[], rfl⟩
  | cons c cs ih =>
    obtain ⟨q, hq⟩ := Option.isSome_iff_exists.mp (h c (List.mem_cons_self c cs))
    obtain ⟨qs, hqs⟩ := ih fun x hx => h x (List.mem_cons_of_mem c hx)
    refine ⟨q :: qs, ?_⟩
    unfold mapQualities
    rw [hq, hqs]

/-!  ## Claim theorems  -/

/-- C1, counterexample: `classify_chord` is not invariant under mod-edo
reduction of the chord.  In the 12-EDO reference system `{12, 16, 19}`
reduces member-wise to `{0, 4, 7}`, yet it classifies as PREDOMINANT while
`{0, 4, 7}` classifies as TONIC, because rule 4 tests literal membership of
`0`. -/
theorem C1_counterexample :
    classify_chord {12, 16, 19} EDO12 = Function.PREDOMINANT ∧
    intervals_mod EDO12 {12, 16, 19} = ({0, 4, 7} : Finset ℤ) ∧
    classify_chord {0, 4, 7} EDO12 = Function.TONIC ∧
    classify_chord {12, 16, 19} EDO12 ≠ classify_chord {0, 4, 7} EDO12 := by
  refine ⟨?_, by decide, ?_, ?_⟩ <;>
    · simp only [classify_chord, perfect_fifth_EDO12]
      decide

/-- C1, amended: for every tuning system, `classify_chord` agrees on a chord
and on its member-wise mod-edo reduction whenever the chord literally
contains `0`; without a literal `0` the results can differ (see the
counterexample). -/
theorem C1_mod_reduction_invariant_on_rooted (s : EDOSystem) (c : Finset ℤ)
    (h : (0 : ℤ) ∈ c) :
    classify_chord c s = classify_chord (intervals_mod s c) s :=
  classify_chord_mod_of_root s c h

theorem C1_witness :
    (0 : ℤ) ∈ ({0, 4, 7} : Finset ℤ) ∧
    classify_chord {0, 4, 7} EDO12 =
      classify_chord (intervals_mod EDO12 {0, 4, 7}) EDO12 :=
  ⟨by decide, C1_mod_reduction_invariant_on_rooted EDO12 {0, 4, 7} (by decide)⟩

/-- C2: `classify_chord` always returns one of the four `Function` values
(it is a total function of its two arguments, hence deterministic), and two
tuning systems that agree on everything except the presentation-selection
fields `current_naming` and `current_note_names` classify every chord
identically. -/
theorem C2_total_and_presentation_independent (c : Finset ℤ)
    (s₁ s₂ : EDOSystem) (he : s₁.edo = s₂.edo)
    (hq : s₁.interval_qualities = s₂.interval_qualities)
    (hlt : s₁.leading_targets = s₂.leading_targets)
    (hdl : s₁.dominant_leading_intervals = s₂.dominant_leading_intervals)
    (hci : s₁.chord_intervals = s₂.chord_intervals)
    (hcn : s₁.chord_naming_systems = s₂.chord_naming_systems)
    (hnn : s₁.note_name_systems = s₂.note_name_systems) :
    (classify_chord c s₁ = Function.TONIC ∨
      classify_chord c s₁ = Function.PREDOMINANT ∨
      classify_chord c s₁ = Function.DOMINANT ∨
      classify_chord c s₁ = Function.MEDIANT) ∧
    classify_chord c s₁ = classify_chord c s₂ := by
  obtain ⟨e₁, q₁, lt₁, dl₁, ci₁, cn₁, nn₁, p₁, r₁⟩ := s₁
  obtain ⟨e₂, q₂, lt₂, dl₂, ci₂, cn₂, nn₂, p₂, r₂⟩ := s₂
  simp only at he hq hlt hdl hci hcn hnn
  subst he hq hlt hdl hci hcn hnn
  refine ⟨?_, rfl⟩
  cases h : classify_chord c ⟨e₁, q₁, lt₁, dl₁, ci₁, cn₁, nn₁, p₁, r₁⟩ <;> simp

theorem C2_witness :
    (classify_chord {0, 4, 7} EDO12 = Function.TONIC ∨
      classify_chord {0, 4, 7} EDO12 = Function.PREDOMINANT ∨
      classify_chord {0, 4, 7} EDO12 = Function.DOMINANT ∨
      classify_chord {0, 4, 7} EDO12 = Function.MEDIANT) ∧
    classify_chord {0, 4, 7} EDO12 = classify_chord {0, 4, 7} EDO12_alt :=
  C2_total_and_presentation_independent {0, 4, 7} EDO12 EDO12_alt
    rfl rfl rfl rfl rfl rfl rfl

/-- C3: `classify_chord` returns TONIC only if the chord literally contains
`0` and some member is congruent to the perfect-fifth step mod edo; in the
12-EDO reference system `{0, 4}` does not classify as TONIC. -/
theorem C3_tonic_requires_root_and_fifth :
    (∀ (s : EDOSystem) (c : Finset ℤ), classify_chord c s = Function.TONIC →
      (0 : ℤ) ∈ c ∧ ((perfect_fifth s.edo : ℕ) : ℤ) ∈ intervals_mod s c) ∧
    classify_chord {0, 4} EDO12 ≠ Function.TONIC := by
  constructor
  · intro s c h
    exact classify_chord_eq_tonic h
  · simp only [classify_chord, perfect_fifth_EDO12]
    decide

theorem C3_witness :
    (0 : ℤ) ∈ ({0, 4, 7} : Finset ℤ) ∧
    ((perfect_fifth EDO12.edo : ℕ) : ℤ) ∈ intervals_mod EDO12 {0, 4, 7} :=
  C3_tonic_requires_root_and_fifth.1 EDO12 {0, 4, 7}
    (by simp only [classify_chord, perfect_fifth_EDO12]; decide)

/-- C4: a chord literally containing `0` never satisfies the dominant-shell
condition, so such a chord is classified DOMINANT (necessarily by rule 1)
only when it also contains an UNSTABLE-quality member. -/
theorem C4_root_defeats_dominant_shell (s : EDOSystem) (c : Finset ℤ)
    (h : (0 : ℤ) ∈ c) :
    is_dominant_shell s c = false ∧
    (classify_chord c s = Function.DOMINANT →
      has_dominant_leading s c = true ∧
        has_quality s c Quality.UNSTABLE = true) := by
  refine ⟨is_dominant_shell_of_root h, ?_⟩
  intro hd
  obtain ⟨h1, h2⟩ := classify_chord_eq_dominant hd
  refine ⟨h1, ?_⟩
  rw [is_dominant_shell_of_root h, Bool.or_false] at h2
  exact h2

theorem C4_witness :
    is_dominant_shell EDO12 {0, 2, 5, 7, 11} = false ∧
    (classify_chord {0, 2, 5, 7, 11} EDO12 = Function.DOMINANT →
      has_dominant_leading EDO12 {0, 2, 5, 7, 11} = true ∧
        has_quality EDO12 {0, 2, 5, 7, 11} Quality.UNSTABLE = true) :=
  C4_root_defeats_dominant_shell EDO12 {0, 2, 5, 7, 11} (by decide)

/-- C5: `has_dominant_leading` holds iff some member's value mod edo is a
designated dominant-leading step with a defined leading target whose value
mod edo is absent from the chord's normalized member set, irrespective of
the member's own quality; in particular it is false when every
dominant-leading member lacks a leading target. -/
theorem C5_has_dominant_leading_characterisation (s : EDOSystem)
    (c : Finset ℤ) :
    (has_dominant_leading s c = true ↔
      ∃ i ∈ c, (i % (s.edo : ℤ)) ∈ s.dominant_leading_intervals ∧
        ∃ t, s.leading_targets (i % (s.edo : ℤ)) = some t ∧
          (t % (s.edo : ℤ)) ∉ intervals_mod s c) ∧
    ((∀ i ∈ c, (i % (s.edo : ℤ)) ∈ s.dominant_leading_intervals →
        s.leading_targets (i % (s.edo : ℤ)) = none) →
      has_dominant_leading s c = false) := by
  have key : ∀ i : ℤ, leads_unresolved s c i = true ↔
      ∃ t, s.leading_targets (i % (s.edo : ℤ)) = some t ∧
        (t % (s.edo : ℤ)) ∉ intervals_mod s c := by
    intro i
    unfold leads_unresolved
    cases h : s.leading_targets (i % (s.edo : ℤ)) with
    | none => simp
    | some t => simp
  have hiff : has_dominant_leading s c = true ↔
      ∃ i ∈ c, (i % (s.edo : ℤ)) ∈ s.dominant_leading_intervals ∧
        ∃ t, s.leading_targets (i % (s.edo : ℤ)) = some t ∧
          (t % (s.edo : ℤ)) ∉ intervals_mod s c := by
    unfold has_dominant_leading
    rw [decide_eq_true_eq]
    constructor
    · rintro ⟨i, hi, hm, hu⟩
      exact ⟨i, hi, hm, (key i).1 hu⟩
    · rintro ⟨i, hi, hm, ht⟩
      exact ⟨i, hi, hm, (key i).2 ht⟩
  refine ⟨hiff, ?_⟩
  intro hall
  cases hb : has_dominant_leading s c with
  | false => rfl
  | true =>
    obtain ⟨i, hi, hm, t, ht, -⟩ := hiff.1 hb
    rw [hall i hi hm] at ht
    cases ht

theorem C5_witness : has_dominant_leading EDO12 {4, 7} = false :=
  (C5_has_dominant_leading_characterisation EDO12 {4, 7}).2 (by decide)

/-- C6: for every valid tuning system the quality lookup performed by
`get_quality` is always within the bounds of the quality table (the
embedding's rendering of "the classifier never raises"), and the empty
chord is valid input that classifies as PREDOMINANT via the fallback
rule. -/
theorem C6_total_on_all_integers (s : EDOSystem) (h : Valid s) :
    (∀ i : ℤ, ((i % (s.edo : ℤ)).toNat < s.interval_qualities.length)) ∧
    classify_chord ∅ s = Function.PREDOMINANT := by
  obtain ⟨hpos, hlen⟩ := h
  constructor
  · intro i
    have h0 : ((s.edo : ℤ)) ≠ 0 := by
      simp only [ne_eq, Nat.cast_eq_zero]
      omega
    have h1 : 0 ≤ i % (s.edo : ℤ) := Int.emod_nonneg i h0
    have h2 : i % (s.edo : ℤ) < (s.edo : ℤ) :=
      Int.emod_lt_of_pos i (by exact_mod_cast hpos)
    rw [hlen]
    omega
  · exact classify_chord_empty s

theorem C6_witness :
    (((-5 : ℤ) % (EDO12.edo : ℤ)).toNat < EDO12.interval_qualities.length) ∧
    classify_chord ∅ EDO12 = Function.PREDOMINANT :=
  ⟨(C6_total_on_all_integers EDO12 (by constructor <;> decide)).1 (-5),
   (C6_total_on_all_integers EDO12 (by constructor <;> decide)).2⟩

/-- C10: the predicates `has_quality`, `has_active_leading` and
`has_dominant_leading` are invariant under mod-edo normalization of the
chord: they are unchanged by replacing the chord with its member-wise
mod-edo image, and more generally agree on any two chords with the same
normalized member set. -/
theorem C10_predicates_mod_invariant (s : EDOSystem) (c : Finset ℤ) :
    ((∀ q, has_quality s (intervals_mod s c) q = has_quality s c q) ∧
      has_active_leading s (intervals_mod s c) = has_active_leading s c ∧
      has_dominant_leading s (intervals_mod s c) = has_dominant_leading s c) ∧
    ∀ c₂, intervals_mod s c = intervals_mod s c₂ →
      ((∀ q, has_quality s c q = has_quality s c₂ q) ∧
        has_active_leading s c = has_active_leading s c₂ ∧
        has_dominant_leading s c = has_dominant_leading s c₂) := by
  have hI := intervals_mod_idem s c
  exact ⟨⟨fun q => has_quality_congr hI q, has_active_leading_congr hI,
      has_dominant_leading_congr hI⟩,
    fun c₂ h => ⟨fun q => has_quality_congr h q, has_active_leading_congr h,
      has_dominant_leading_congr h⟩⟩

theorem C10_witness :
    has_active_leading EDO12 {12, 16, 19} = has_active_leading EDO12 {0, 4, 7} ∧
    has_dominant_leading EDO12 {12, 16, 19} =
      has_dominant_leading EDO12 {0, 4, 7} :=
  ⟨((C10_predicates_mod_invariant EDO12 {12, 16, 19}).2 {0, 4, 7}
      (by decide)).2.1,
   ((C10_predicates_mod_invariant EDO12 {12, 16, 19}).2 {0, 4, 7}
      (by decide)).2.2⟩

/-- C7: with a positive `edo` and known quality codes, construction succeeds
iff the quality list has length `edo`, every chord-notation table has as many
entries as there are chord shapes, and every note-name table has length
`edo`; a quality-list length mismatch raises the validation failure
reporting the expected and actual lengths. -/
theorem C7_construction_validation (edo : ℕ) (iql : List String)
    (lt : ℤ → Option ℤ) (dli : Finset ℤ) (ci : List (List ℤ))
    (cns nns : List (String × List String)) (cn cnn : String)
    (hedo : 0 < edo) (hcodes : ∀ c ∈ iql, (quality_map c).isSome = true) :
    (constructionOk (mkEDOSystem edo iql lt dli ci cns nns cn cnn) = true ↔
      (iql.length = edo ∧ (∀ p ∈ cns, p.2.length = ci.length) ∧
        (∀ p ∈ nns, p.2.length = edo))) ∧
    (iql.length ≠ edo → mkEDOSystem edo iql lt dli ci cns nns cn cnn =
      Except.error ("Expected " ++ toString edo ++ " qualities, got " ++
        toString iql.length)) := by
  by_cases hlen : iql.length = edo
  · have hlen' : ¬ iql.length ≠ edo := not_ne_iff.mpr hlen
    obtain ⟨qs, hqs⟩ := mapQualities_isSome hcodes
    refine ⟨?_, fun hne => absurd hlen hne⟩
    unfold mkEDOSystem
    rw [if_neg hlen', hqs]
    dsimp only
    rw [if_neg (by omega : ¬ edo = 0)]
    cases hfind : cns.find? (fun p => decide (p.2.length ≠ ci.length)) with
    | some p =>
      have hp : p.2.length ≠ ci.length := by
        have := List.find?_some hfind
        simpa using this
      have hpmem : p ∈ cns := List.mem_of_find?_eq_some hfind
      constructor
      · intro hfalse
        simp [constructionOk] at hfalse
      · rintro ⟨-, hcns, -⟩
        exact absurd (hcns p hpmem) hp
    | none =>
      have hcns : ∀ p ∈ cns, p.2.length = ci.length := by
        intro p hp
        have := List.find?_eq_none.mp hfind p hp
        simpa using this
      cases hfind2 : nns.find? (fun p => decide (p.2.length ≠ edo)) with
      | some p =>
        have hp : p.2.length ≠ edo := by
          have := List.find?_some hfind2
          simpa using this
        have hpmem : p ∈ nns := List.mem_of_find?_eq_some hfind2
        constructor
        · intro hfalse
          simp [constructionOk] at hfalse
        · rintro ⟨-, -, hnns⟩
          exact absurd (hnns p hpmem) hp
      | none =>
        have hnns : ∀ p ∈ nns, p.2.length = edo := by
          intro p hp
          have := List.find?_eq_none.mp hfind2 p hp
          simpa using this
        exact ⟨fun _ => ⟨hlen, hcns, hnns⟩, fun _ => rfl⟩
  · have hlen' : iql.length ≠ edo := hlen
    refine ⟨?_, fun _ => ?_⟩
    · unfold mkEDOSystem
      rw [if_pos hlen']
      constructor
      · intro hfalse
        simp [constructionOk] at hfalse
      · rintro ⟨heq, -, -⟩
        exact absurd heq hlen
    · unfold mkEDOSystem
      rw [if_pos hlen']

theorem C7_witness :
    constructionOk (mkEDOSystem 2 ["s", "u"] (fun _ => none) ∅ [[0]]
      [("full", ["x"])] [("numbers", ["0", "1"])] "full" "default") = true :=
  (C7_construction_validation 2 ["s", "u"] (fun _ => none) ∅ [[0]]
      [("full", ["x"])] [("numbers", ["0", "1"])] "full" "default"
      (by decide) (by decide)).1.mpr
    ⟨rfl, by decide, by decide⟩

set_option maxRecDepth 10000 in
/-- C8, counterexample: the generator applies the buckets to the
double-precision cents value, not the exact one.  At `edo = 880`,
`step = 187` the exact cents is 255 (bucket MODAL), but the program
computes `187 * (1200.0 / 880) = 254.99999999999997` and lands in the
`[160, 255)` bucket, yielding UNSTABLE. -/
theorem C8_counterexample :
    (generate_interval_quality_list 880).getD 187 ("") = "u" ∧
    spec_quality_bucket 880 187 = "m" ∧ ("u" : String) ≠ "m" := by
  refine ⟨?_, ?_, by decide⟩
  · unfold generate_interval_quality_list
    rw [List.getD_eq_getElem?_getD, List.getElem?_map,
      List.getElem?_range (by norm_num : (187 : ℕ) < 880)]
    simp only [Option.map_some', Option.getD_some]
    decide
  · unfold spec_quality_bucket spec_quality_bucket_at
    have hc : ((187 : ℕ) : ℚ) * (1200 / ((880 : ℕ) : ℚ)) = 255 := by norm_num
    rw [hc]
    norm_num

set_option maxHeartbeats 1600000 in
/-- C8, amended: for positive `edo`, `generate_interval_quality_list`
returns a list of length `edo`, its entry at step 0 is STABLE, and its
entry at every step in `[0, edo)` is the quality the fixed cents-range
buckets assign to the double-precision value
`cents = fl(step * fl(1200/edo))` the program computes, whenever that value
lies in `(0, 1200)`; at exact bucket boundaries the float value can fall in
the adjacent bucket (see the counterexample). -/
theorem C8_generator_buckets_fl (edo : ℕ) (h : 0 < edo) :
    (generate_interval_quality_list edo).length = edo ∧
    (generate_interval_quality_list edo).getD 0 ("") = "s" ∧
    ∀ step, step < edo →
      fplt (fpN 0) (cents_fp edo step) = true →
      fplt (cents_fp edo step) (fpN 1200) = true →
      (generate_interval_quality_list edo).getD step ("") =
        spec_quality_bucket_at step (value (cents_fp edo step)) := by
  refine ⟨?_, ?_, ?_⟩
  · simp [generate_interval_quality_list]
  · unfold generate_interval_quality_list
    rw [List.getD_eq_getElem?_getD, List.getElem?_map, List.getElem?_range h]
    simp
  · intro step hstep hpos0 hlt0
    have hpos : 0 < value (cents_fp edo step) := by
      have h1 := (fplt_iff _ _).mp hpos0
      rwa [value_fpN, Nat.cast_zero] at h1
    have hlt : value (cents_fp edo step) < 1200 := by
      have h1 := (fplt_iff _ _).mp hlt0
      rwa [value_fpN, Nat.cast_ofNat] at h1
    unfold generate_interval_quality_list spec_quality_bucket_at
    rw [List.getD_eq_getElem?_getD, List.getElem?_map, List.getElem?_range hstep]
    simp only [Option.map_some', Option.getD_some, Bool.and_eq_true, fplt_iff,
      fple_iff, value_fpN, Nat.cast_ofNat, Nat.cast_zero]
    by_cases h0 : step = 0
    · simp [h0]
    · rw [if_neg h0, if_neg h0]
      split_ifs with h1 h2 h3 h4 h5 h6 h7 h8 h9
      all_goals try rfl
      exfalso
      simp only [not_and, not_lt] at h1 h2 h3 h4 h5 h6 h7 h8 h9
      have c1 := h1 hpos
      have c2 := h2 c1
      have c3 := h3 c2
      have c4 := h4 c3
      have c5 := h5 c4
      have c6 := h6 c5
      have c7 := h7 c6
      have c8 := h8 c7
      have c9 := h9 c8
      linarith

theorem C8_witness :
    (generate_interval_quality_list 12).length = 12 ∧
    (generate_interval_quality_list 12).getD 8 ("") =
      spec_quality_bucket_at 8 (value (cents_fp 12 8)) :=
  ⟨(C8_generator_buckets_fl 12 (by decide)).1,
   (C8_generator_buckets_fl 12 (by decide)).2.2 8 (by decide) (by decide)
     (by decide)⟩

set_option maxRecDepth 10000 in
set_option maxHeartbeats 1600000 in
/-- C9, counterexample: at `edo = 500` the exact keys of steps 292 and 293
tie (`|700.8 - 702| = |703.2 - 702| = 6/5`), so the claim's
lowest-index tie rule demands 292; but the program's double-precision
minimisation returns 293, because `fl(1200.0/500)` rounds below 2.4 and
makes step 293's key strictly smaller. -/
theorem C9_counterexample :
    perfect_fifth_fl 500 = 293 ∧
    fifth_key 500 292 = fifth_key 500 293 ∧ ¬((293 : ℕ) ≤ 292) := by
  refine ⟨by decide, ?_, by decide⟩
  unfold fifth_key
  rw [show ((292 : ℕ) : ℚ) * (1200 / ((500 : ℕ) : ℚ)) - 702 = -(6 / 5) from by
      norm_num,
    show ((293 : ℕ) : ℚ) * (1200 / ((500 : ℕ) : ℚ)) - 702 = 6 / 5 from by
      norm_num,
    abs_neg]

/-- C9, amended: for positive `edo`, the derived `perfect_fifth_fl edo`
lies in `[0, edo)`, its double-precision key
`|fl(fl(i * fl(1200/edo)) - 702)|` is minimal among all steps below `edo`,
and any step achieving the same double-precision key is at least
`perfect_fifth_fl edo` (the program's `min` keeps the first minimiser);
ties of the exact key need not be respected (see the counterexample). -/
theorem C9_perfect_fifth_fl_first_argmin (edo : ℕ) (h : 0 < edo) :
    perfect_fifth_fl edo < edo ∧
    ∀ j, j < edo →
      fifth_key_fl edo (perfect_fifth_fl edo) ≤ fifth_key_fl edo j ∧
      (fifth_key_fl edo j ≤ fifth_key_fl edo (perfect_fifth_fl edo) →
        perfect_fifth_fl edo ≤ j) := by
  obtain ⟨x, xs, hxs⟩ : ∃ x xs, List.range edo = x :: xs := by
    cases hr : List.range edo with
    | nil =>
      exfalso
      have := List.range_eq_nil.mp hr
      omega
    | cons a l => exact ⟨a, l, rfl⟩
  have hpf : perfect_fifth_fl edo = min_key_aux (fifth_key_fl edo) x xs := by
    unfold perfect_fifth_fl
    rw [hxs]
    exact min_key_fp_aux_eq (fifth_key_fp edo) x xs
  have hmem : ∀ y, (y = x ∨ y ∈ xs) ↔ y < edo := by
    intro y
    rw [← List.mem_cons, ← hxs, List.mem_range]
  have hsort : (x :: xs).Pairwise (· < ·) := by
    rw [← hxs]
    exact List.pairwise_lt_range edo
  constructor
  · rw [hpf]
    rcases min_key_aux_mem (fifth_key_fl edo) x xs with hm | hm
    · rw [hm]
      exact (hmem x).1 (Or.inl rfl)
    · exact (hmem _).1 (Or.inr hm)
  · intro j hj
    have hj' := (hmem j).2 hj
    constructor
    · rw [hpf]
      rcases hj' with hjx | hjx
      · rw [hjx]
        exact (min_key_aux_le (fifth_key_fl edo) x xs).1
      · exact (min_key_aux_le (fifth_key_fl edo) x xs).2 j hjx
    · intro hle
      rw [hpf] at hle ⊢
      exact min_key_aux_first (fifth_key_fl edo) x xs hsort j hj' hle

theorem C9_witness :
    perfect_fifth_fl 12 < 12 ∧
    fifth_key_fl 12 (perfect_fifth_fl 12) ≤ fifth_key_fl 12 6 :=
  ⟨(C9_perfect_fifth_fl_first_argmin 12 (by decide)).1,
   ((C9_perfect_fifth_fl_first_argmin 12 (by decide)).2 6 (by decide)).1⟩

end FunctionalHarmony
